import Mathlib

set_option maxRecDepth 10000

namespace Istqb

/-! ## Text utilities

List-of-characters models of the Python string operations used by the
question-generator scripts (src/generate_questions_en.py and
src/generate_questions_cs.py). Text is modelled as a list of characters.
Case lowering is modelled with the ASCII `Char.toLower`, which agrees with
Python str.lower on the ASCII range; the markers the scripts search for
contain no upper-case non-ASCII characters, so this agrees with the source
on all inputs considered here. -/

/-- Models the whitespace class of Python regular expressions and of
str.strip, restricted to the ASCII range. -/
def isSpaceChar (c : Char) : Bool :=
  c = ' ' || c = '\t' || c = '\n' || c = '\r' || c.toNat = 11 || c.toNat = 12

/-- Models Python str.strip: drops leading and trailing whitespace. -/
def strip (l : List Char) : List Char :=
  ((l.dropWhile isSpaceChar).reverse.dropWhile isSpaceChar).reverse

/-- Splits a character list at every newline character, keeping empty
segments. A list with no newline yields one segment. -/
def splitOnNl : List Char → List (List Char)
  | [] => [[]]
  | c :: rest =>
    if c = '\n' then [] :: splitOnNl rest
    else
      match splitOnNl rest with
      | [] => [[c]]
      | l :: ls => (c :: l) :: ls

/-- Models Python str.splitlines for newline-separated text (the texts built
by the scripts join pages with a newline): segments between newlines, with a
trailing empty segment dropped. -/
def splitlines (l : List Char) : List (List Char) :=
  let segs := splitOnNl l
  if segs.getLast? = some [] then segs.dropLast else segs

/-- Decides whether a character is an ASCII decimal digit. -/
def isDigitChar (c : Char) : Bool :=
  '0' ≤ c && c ≤ '9'

/-- Models Python int() on a string of decimal digits. -/
def digitsToNat (l : List Char) : Nat :=
  l.foldl (fun acc c => 10 * acc + (c.toNat - '0'.toNat)) 0

/-- Decides whether a character is one of the four option letters a, b, c, d. -/
def isOptionLetter (c : Char) : Bool :=
  c = 'a' || c = 'b' || c = 'c' || c = 'd'

/-- Models the word-character class of Python regular expressions for the
ASCII range, used for the word-boundary test in the answer-key row pattern. -/
def isWordChar (c : Char) : Bool :=
  c.isAlphanum || c = '_'

/-- Decides whether the first argument is a prefix of the second. -/
def startsWith : List Char → List Char → Bool
  | [], _ => true
  | _ :: _, [] => false
  | p :: ps, c :: cs => p = c && startsWith ps cs

/-- Models Python str.find restricted to successful results: the least index
at which the pattern occurs, or none. -/
def findSub (pat : List Char) : List Char → Option Nat
  | [] => if startsWith pat [] then some 0 else none
  | c :: rest =>
    if startsWith pat (c :: rest) then some 0
    else (findSub pat rest).map (· + 1)

/-- Consumes the pattern case-insensitively (ASCII) from the front of the
text, returning the remainder. -/
def eatStrCI : List Char → List Char → Option (List Char)
  | [], cs => some cs
  | _ :: _, [] => none
  | p :: ps, c :: cs => if c.toLower = p.toLower then eatStrCI ps cs else none

/-- Consumes the pattern exactly from the front of the text, returning the
remainder. -/
def eatStr : List Char → List Char → Option (List Char)
  | [], cs => some cs
  | _ :: _, [] => none
  | p :: ps, c :: cs => if c = p then eatStr ps cs else none

/-- Consumes any run of whitespace, as the greedy whitespace-star pattern. -/
def eatWs0 (cs : List Char) : List Char :=
  cs.dropWhile isSpaceChar

/-- Consumes a non-empty run of whitespace, as the greedy whitespace-plus
pattern. -/
def eatWs1 : List Char → Option (List Char)
  | [] => none
  | c :: rest => if isSpaceChar c then some (eatWs0 rest) else none

/-- Consumes a non-empty digit run, as the greedy digit-plus pattern,
returning its integer value. -/
def eatDigits1 (cs : List Char) : Option (Nat × List Char) :=
  let ds := cs.takeWhile isDigitChar
  if ds = [] then none else some (digitsToNat ds, cs.drop ds.length)

/-- Consumes one given character. -/
def eatChar (a : Char) : List Char → Option (List Char)
  | [] => none
  | c :: rest => if c = a then some rest else none

/-! ## Python dict model

Association lists with the insertion discipline of Python dictionaries:
inserting an existing key updates the entry in place, a new key is appended
at the end. -/

/-- Models dict assignment d[k] = v: update in place or append. -/
def dictInsert {κ α : Type} [DecidableEq κ] (k : κ) (v : α) :
    List (κ × α) → List (κ × α)
  | [] => [(k, v)]
  | (k', v') :: rest =>
    if k' = k then (k, v) :: rest else (k', v') :: dictInsert k v rest

/-- Models dict lookup d.get(k): the first entry with the given key. -/
def dictGet? {κ α : Type} [DecidableEq κ] (k : κ) :
    List (κ × α) → Option α
  | [] => none
  | (k', v') :: rest => if k' = k then some v' else dictGet? k rest

/-- Models the in-place update d[k] += ext for a dict of character lists. -/
def dictAppend (k : Char) (ext : List Char) :
    List (Char × List Char) → List (Char × List Char)
  | [] => []
  | (k', v) :: rest =>
    if k' = k then (k', v ++ ext) :: rest else (k', v) :: dictAppend k ext rest

/-- The greatest element of a character list, if any. Models
sorted(keys)[-1] in the source, which selects the alphabetically greatest
key of a non-empty dict. -/
def listMax? : List Char → Option Char
  | [] => none
  | c :: rest =>
    match listMax? rest with
    | none => some c
    | some m => some (max c m)

/-! ## Answer-key parsing

Model of parse_answer_key in src/generate_questions_en.py (lines 82-99) and
src/generate_questions_cs.py (lines 76-94). -/

/-- The option-letter class of KEY_ROW_RE: the flag selects the IGNORECASE
variant used by the EN script. -/
def keyLetterOk (ci : Bool) (c : Char) : Bool :=
  if ci then isOptionLetter c.toLower else isOptionLetter c

/-- Consumes one option letter of the key-row pattern. -/
def eatKeyLetter (ci : Bool) : List Char → Option (Char × List Char)
  | [] => none
  | c :: tail => if keyLetterOk ci c then some (c, tail) else none

/-- The word-boundary test after the letter of the key-row pattern: the end
of the line or a non-word character. -/
def boundaryOk : List Char → Bool
  | [] => true
  | d :: _ => !(isWordChar d)

/-- Models KEY_ROW_RE.match(line) for the pattern matching a digit run, then
whitespace, then an option letter followed by a word boundary, with the
letter-class test of keyLetterOk and the letter lowered as in the source. -/
def matchKeyRow (ci : Bool) (line : List Char) : Option (Nat × Char) :=
  (eatDigits1 line).bind fun p =>
  (eatWs1 p.2).bind fun rest =>
  (eatKeyLetter ci rest).bind fun q =>
  if boundaryOk q.2 then some (p.1, q.1.toLower) else none

/-- The line scan shared by both parse_answer_key variants: each stripped
line matching the key-row pattern is inserted into the resulting dict. -/
def scanKeyRows (ci : Bool) (text : List Char) : List (Nat × Char) :=
  (splitlines text).foldl
    (fun key line =>
      match matchKeyRow ci (strip line) with
      | some (n, c) => dictInsert n c key
      | none => key)
    []

/-- The location of the EN key-section marker: the first occurrence of
"answer key" in the lowered text, as in text.lower().find("answer key"). -/
def enMarkerIdx (t : List Char) : Option Nat :=
  findSub ("answer key".toList) (t.map Char.toLower)

/-- The location of the CS key-section marker: the first occurrence of the
exact text "Klíč odpovědí", as in text.find("Klíč odpovědí") — note that the
CS source does not lower the text first. -/
def csMarkerIdx (t : List Char) : Option Nat :=
  findSub ("Klíč odpovědí".toList) t

/-- Models parse_answer_key of src/generate_questions_en.py: locate the
marker case-insensitively, parse from there, falling back to the whole text. -/
def parseAnswerKeyEn (t : List Char) : List (Nat × Char) :=
  match enMarkerIdx t with
  | some idx => scanKeyRows true (t.drop idx)
  | none => scanKeyRows true t

/-- Models parse_answer_key of src/generate_questions_cs.py: locate the
marker by exact (case-sensitive) search, parse from there, falling back to
the whole text. -/
def parseAnswerKeyCs (t : List Char) : List (Nat × Char) :=
  match csMarkerIdx t with
  | some idx => scanKeyRows false (t.drop idx)
  | none => scanKeyRows false t

/-- Spec-modelled variant of the CS answer-key parser in which the marker is
located case-insensitively, following the claim wording; compared against
parseAnswerKeyCs, which is the model of the source. -/
def parseAnswerKeyCsSpec (t : List Char) : List (Nat × Char) :=
  match findSub ("klíč odpovědí".toList) (t.map Char.toLower) with
  | some idx => scanKeyRows false (t.drop idx)
  | none => scanKeyRows false t

/-! ## Question-block parsing

Model of the per-block loop of parse_questions in
src/generate_questions_en.py (lines 44-77) and
src/generate_questions_cs.py (lines 38-71). -/

/-- The fixed option order of the scripts. -/
def abcd : List Char := ['a', 'b', 'c', 'd']

/-- Models ANSWER_LINE_RE.match(line) for the option-start pattern: an
option letter, a closing parenthesis, optional whitespace, then at least one
further character. With backtracking, a tail consisting only of whitespace
still matches with the last whitespace character as the captured text. -/
def matchAnswerLine (line : List Char) : Option (Char × List Char) :=
  match line with
  | c :: ')' :: rest =>
    if isOptionLetter c then
      let t := rest.dropWhile isSpaceChar
      if t ≠ [] then some (c, t)
      else
        match rest.getLast? with
        | some w => some (c, [w])
        | none => none
    else none
  | _ => none

/-- The mutable state of the per-block loop: the mode flag, the collected
question lines, and the option dict. -/
structure BlockAcc where
  answersMode : Bool
  qLines : List (List Char)
  optMap : List (Char × List Char)
deriving DecidableEq, Repr

/-- The keys of the option dict, in insertion order. -/
def optKeys (m : List (Char × List Char)) : List Char :=
  m.map Prod.fst

/-- One iteration of the per-block loop of parse_questions: an option-start
line enters answers mode and records the letter; otherwise the line extends
the question in question mode, and in answers mode it is appended
(space-joined) to the entry of sorted(option_map.keys())[-1], the
alphabetically greatest letter recorded so far. -/
def blockStep (acc : BlockAcc) (line : List Char) : BlockAcc :=
  match matchAnswerLine line with
  | some (letter, txt) =>
    { acc with answersMode := true,
               optMap := dictInsert letter (strip txt) acc.optMap }
  | none =>
    if acc.answersMode = false then
      { acc with qLines := acc.qLines ++ [line] }
    else
      match listMax? (optKeys acc.optMap) with
      | none => acc
      | some k => { acc with optMap := dictAppend k (' ' :: strip line) acc.optMap }

/-- The non-empty stripped lines of a block, as built by the comprehension
over block.splitlines() in the source. -/
def prepLines (block : List Char) : List (List Char) :=
  ((splitlines block).map strip).filter (fun l => l ≠ [])

/-- Models " ".join of a list of strings. -/
def joinSpace : List (List Char) → List Char
  | [] => []
  | [l] => l
  | l :: ls => l ++ ' ' :: joinSpace ls

/-- The parsed form of one question block: the joined stem and the fixed
four-slot option list. -/
structure ParsedBlock where
  question : List Char
  options : List (List Char)
deriving DecidableEq, Repr

/-- Models the body of parse_questions for one block: fold the mode machine
over the stripped lines, join the stem, and read the four option slots
(missing letters give the empty string). -/
def parseBlock (block : List Char) : ParsedBlock :=
  let acc := (prepLines block).foldl blockStep ⟨false, [], []⟩
  { question := strip (joinSpace acc.qLines),
    options := abcd.map (fun ch => (dictGet? ch acc.optMap).getD []) }

/-- The accumulator of the spec-described variant of the block loop, which
tracks the most recently started letter. -/
structure BlockAccS where
  answersMode : Bool
  qLines : List (List Char)
  optMap : List (Char × List Char)
  lastKey : Option Char
deriving DecidableEq, Repr

/-- Projection of the spec accumulator onto the source accumulator. -/
def toAcc (a : BlockAccS) : BlockAcc :=
  ⟨a.answersMode, a.qLines, a.optMap⟩

/-- Spec-modelled variant of the block loop step in which a continuation
line is appended to the most recently seen letter, following the claim
wording; compared against blockStep, which is the model of the source. -/
def blockStepSpec (acc : BlockAccS) (line : List Char) : BlockAccS :=
  match matchAnswerLine line with
  | some (letter, txt) =>
    { acc with answersMode := true,
               optMap := dictInsert letter (strip txt) acc.optMap,
               lastKey := some letter }
  | none =>
    if acc.answersMode = false then
      { acc with qLines := acc.qLines ++ [line] }
    else
      match acc.lastKey with
      | none => acc
      | some k => { acc with optMap := dictAppend k (' ' :: strip line) acc.optMap }

/-- The spec-described variant of parseBlock built on blockStepSpec. -/
def parseBlockSpec (block : List Char) : ParsedBlock :=
  let acc := (prepLines block).foldl blockStepSpec ⟨false, [], [], none⟩
  { question := strip (joinSpace acc.qLines),
    options := abcd.map (fun ch => (dictGet? ch acc.optMap).getD []) }

/-- The letters of the option-start lines of a line list, in document order. -/
def matchedLetters (lines : List (List Char)) : List Char :=
  lines.filterMap (fun l => (matchAnswerLine l).map Prod.fst)

/-! ## Header matching and segmentation

Model of QUESTION_HEADER_RE and the re.split-based segmentation at the top
of parse_questions (src/generate_questions_en.py lines 37-46,
src/generate_questions_cs.py lines 30-39). -/


/-- Models a match of the EN QUESTION_HEADER_RE at the front of the text:
the word Question (case-insensitive), whitespace, an optional hash, a digit
run, optional whitespace, and a parenthesised point-value annotation with
Point or Mark (case-insensitive). Returns the captured ordinal and the text
after the match. -/
def matchHeaderEn (cs : List Char) : Option (Nat × List Char) :=
  (eatStrCI ("Question".toList) cs).bind fun cs1 =>
  (eatWs1 cs1).bind fun cs2 =>
  let cs3 := match cs2 with
    | '#' :: r => r
    | _ => cs2
  (eatDigits1 cs3).bind fun p =>
  (eatChar '(' (eatWs0 p.2)).bind fun cs6 =>
  (eatChar '1' cs6).bind fun cs7 =>
  (eatWs1 cs7).bind fun cs8 =>
  (match eatStrCI ("Point".toList) cs8 with
   | some r => some r
   | none => eatStrCI ("Mark".toList) cs8).bind fun cs9 =>
  (eatChar ')' cs9).map fun cs10 => (p.1, cs10)

/-- Models a match of the CS QUESTION_HEADER_RE at the front of the text:
the word Otázka, whitespace, a digit run, whitespace, and the literal
point-value annotation. Returns the captured ordinal and the remainder. -/
def matchHeaderCs (cs : List Char) : Option (Nat × List Char) :=
  (eatStr ("Otázka".toList) cs).bind fun cs1 =>
  (eatWs1 cs1).bind fun cs2 =>
  (eatDigits1 cs2).bind fun p =>
  (eatWs1 p.2).bind fun cs4 =>
  (eatStr ("(1 bod)".toList) cs4).map fun cs5 => (p.1, cs5)

/-- Fuel-indexed scan implementing re.split with one capturing group for the
header pattern: the text before the first match, then for every match the
captured ordinal paired with the text up to the next match. The fuel bounds
the number of scanned characters; the top-level wrapper supplies the length
of the text, which suffices since every match consumes at least one
character. -/
def splitHeadersGo (m : List Char → Option (Nat × List Char)) :
    Nat → List Char → List Char × List (Nat × List Char)
  | 0, cs => (cs, [])
  | _ + 1, [] => ([], [])
  | fuel + 1, c :: rest =>
    match m (c :: rest) with
    | some (n, after) =>
      let res := splitHeadersGo m fuel after
      ([], (n, res.1) :: res.2)
    | none =>
      let res := splitHeadersGo m fuel rest
      (c :: res.1, res.2)

/-- Models QUESTION_HEADER_RE.split(text) together with the pairing loop of
parse_questions: the preamble and the (ordinal, block text) pairs. -/
def splitHeaders (m : List Char → Option (Nat × List Char)) (cs : List Char) :
    List Char × List (Nat × List Char) :=
  splitHeadersGo m cs.length cs

/-- Fuel-indexed count of the non-overlapping leftmost matches of the header
pattern in the text, mirroring the scan of splitHeadersGo. -/
def countHeadersGo (m : List Char → Option (Nat × List Char)) :
    Nat → List Char → Nat
  | 0, _ => 0
  | _ + 1, [] => 0
  | fuel + 1, c :: rest =>
    match m (c :: rest) with
    | some (_, after) => countHeadersGo m fuel after + 1
    | none => countHeadersGo m fuel rest

/-- The number of matches of the header pattern in the text. -/
def countHeaders (m : List Char → Option (Nat × List Char)) (cs : List Char) : Nat :=
  countHeadersGo m cs.length cs

/-- Models parse_questions: segment the text at the header matches and parse
every block, keyed by ordinal in a dict (a repeated ordinal overwrites). -/
def parseQuestions (m : List Char → Option (Nat × List Char)) (text : List Char) :
    List (Nat × ParsedBlock) :=
  (splitHeaders m text).2.foldl
    (fun res p => dictInsert p.1 (parseBlock p.2) res) []

/-! ## Question-set building

Model of the joining loop of main in src/generate_questions_en.py
(lines 123-140) and src/generate_questions_cs.py (lines 112-129). -/

/-- The final question record of the generator scripts. -/
structure QuestionRecord where
  set : String
  id : Nat
  language : String
  question : List Char
  options : List (List Char)
  correctIndex : Nat
deriving DecidableEq, Repr

/-- Models the per-set joining loop of main: every parsed ordinal found in
the answer key yields a record whose correctIndex is the position of the key
letter in the fixed order a, b, c, d; an ordinal absent from the key yields
a warning naming the ordinal and the set, and no record. -/
def buildRecords (setId language : String) (key : List (Nat × Char)) :
    List (Nat × ParsedBlock) → List QuestionRecord × List (Nat × String)
  | [] => ([], [])
  | (n, b) :: rest =>
    let res := buildRecords setId language key rest
    match dictGet? n key with
    | none => (res.1, (n, setId) :: res.2)
    | some letter =>
      ({ set := setId, id := n, language := language,
         question := b.question, options := b.options,
         correctIndex := abcd.indexOf letter } :: res.1, res.2)

/-! ## Trainer: statistics

Model of the statistics handling of src/istqb_trainer.py. User statistics
are dicts from a composite string key to seen/correct counters; the constant
single-field wrapper dict holding the questions map under one fixed key is
collapsed into the per-user questions map itself. -/

/-- One per-question statistics record. -/
structure StatsRec where
  seen : Nat
  correct : Nat
deriving DecidableEq, Repr

/-- The per-user question statistics map. -/
abbrev QStats : Type := List (String × StatsRec)

/-- The whole stats file content: user name to question statistics. -/
abbrev StatsFile : Type := List (String × QStats)

/-- Models the composite key f-string language:set:id used by the trainer. -/
def mkKey (language setId : String) (n : Nat) : String :=
  language ++ ":" ++ setId ++ ":" ++ toString n

/-- Models the qid tuple (set, id, language) keying the answers dict. -/
def qidOf (language : String) (q : QuestionRecord) : String × Nat × String :=
  (q.set, q.id, language)

/-- The seen counter stored under a key, zero when the key is absent. -/
def getSeen (qstats : QStats) (key : String) : Nat :=
  ((dictGet? key qstats).getD ⟨0, 0⟩).seen

/-- The correct counter stored under a key, zero when the key is absent. -/
def getCorrect (qstats : QStats) (key : String) : Nat :=
  ((dictGet? key qstats).getD ⟨0, 0⟩).correct

/-- Models the equality test of the stored answer against the correct index
in show_results and update_stats_for_run: answers.get(qid, None) compared
with the correct index of the record (a missing answer compares unequal). -/
def isCorrectQ (language : String) (answers : String × Nat × String → Option Nat)
    (q : QuestionRecord) : Bool :=
  answers (qidOf language q) == some q.correctIndex

/-- Models one iteration of the loop of update_stats_for_run
(src/istqb_trainer.py lines 63-71): setdefault the key with zero counters,
increment seen, and increment correct when the stored answer equals the
correct index. -/
def updateQ (language : String) (answers : String × Nat × String → Option Nat)
    (qstats : QStats) (q : QuestionRecord) : QStats :=
  let key := mkKey language q.set q.id
  let r := (dictGet? key qstats).getD ⟨0, 0⟩
  dictInsert key
    ⟨r.seen + 1, r.correct + (if isCorrectQ language answers q then 1 else 0)⟩
    qstats

/-- Models the loop of update_stats_for_run over the questions of one run. -/
def updateStatsForRun (language : String)
    (answers : String × Nat × String → Option Nat)
    (questions : List QuestionRecord) (qstats : QStats) : QStats :=
  questions.foldl (updateQ language answers) qstats

/-- Models update_stats_for_run at the stats-file level: setdefault the user
record and update its questions map (src/istqb_trainer.py lines 54-73). -/
def updateStatsTop (username language : String)
    (answers : String × Nat × String → Option Nat)
    (questions : List QuestionRecord) (stats : StatsFile) : StatsFile :=
  let userQ := (dictGet? username stats).getD []
  dictInsert username (updateStatsForRun language answers questions userQ) stats

/-! ## Trainer: weak-question selection

Model of get_questions_for_mode (src/istqb_trainer.py lines 76-111). -/

/-- The weak-question predicate of the targeted mode: a stats record exists,
has been seen at least once, and its success rate is below seven tenths. -/
def isWeakQ (language : String) (userQ : QStats) (q : QuestionRecord) : Bool :=
  match dictGet? (mkKey language q.set q.id) userQ with
  | none => false
  | some r =>
    if r.seen = 0 then false
    else decide ((r.correct : ℚ) / (r.seen : ℚ) < 7 / 10)

/-- Models the weak-question loop of get_questions_for_mode: the questions
of the set, in order, whose stats make them weak. -/
def selectWeak (language : String) (userQ : QStats)
    (questions : List QuestionRecord) : List QuestionRecord :=
  questions.filter (isWeakQ language userQ)

/-- Models get_questions_for_mode: in targeted mode return the weak subset
when it is non-empty and the full set otherwise; in standard mode return the
full set. -/
def getQuestionsForMode (language username : String) (stats : StatsFile)
    (questions : List QuestionRecord) (targeted : Bool) : List QuestionRecord :=
  if targeted then
    let userQ := (dictGet? username stats).getD []
    let weak := selectWeak language userQ questions
    if weak ≠ [] then weak else questions
  else questions

/-! ## Trainer: scoring

Model of the scoring part of show_results (src/istqb_trainer.py
lines 392-417). The float arithmetic of the source is modelled over the
rationals; round is modelled as round-half-to-even to one decimal place. -/

/-- Round-half-to-even of a rational to an integer. -/
def roundHalfEven (q : ℚ) : ℤ :=
  if q - ⌊q⌋ < 1 / 2 then ⌊q⌋
  else if q - ⌊q⌋ > 1 / 2 then ⌊q⌋ + 1
  else if Even ⌊q⌋ then ⌊q⌋ else ⌊q⌋ + 1

/-- Models Python round(x, 1) over the rationals. -/
def pyRound1 (q : ℚ) : ℚ :=
  (roundHalfEven (q * 10) : ℚ) / 10

/-- The number of questions of the run whose stored answer equals the
correct index, as counted by the loop of show_results. -/
def countCorrect (language : String)
    (answers : String × Nat × String → Option Nat)
    (questions : List QuestionRecord) : Nat :=
  questions.countP (isCorrectQ language answers)

/-- Models score_percent = round(correct / total * 100, 1) of show_results. -/
def scorePercent (language : String)
    (answers : String × Nat × String → Option Nat)
    (questions : List QuestionRecord) : ℚ :=
  pyRound1 ((countCorrect language answers questions : ℚ) /
    (questions.length : ℚ) * 100)

/-! ## Trainer: result-view state and stats loading -/

/-- The slice of the ambient session state involved in the one-shot stats
update of show_results: the persisted stats content and the one-shot flag.
init_state (src/istqb_trainer.py line 130) clears the flag. -/
structure ResultState where
  stats : StatsFile
  statsUpdated : Bool
deriving DecidableEq

/-- Models one rendering of the stats-update guard of show_results
(src/istqb_trainer.py lines 398-400): when the one-shot flag is clear,
update the stats and set the flag; otherwise change nothing. -/
def showResultsStep (username language : String)
    (answers : String × Nat × String → Option Nat)
    (questions : List QuestionRecord) (s : ResultState) : ResultState :=
  if s.statsUpdated then s
  else
    { stats := updateStatsTop username language answers questions s.stats,
      statsUpdated := true }

/-- Models load_stats (src/istqb_trainer.py lines 37-45). The file argument
is none when the stats file is absent, and otherwise carries its content;
the parse argument models json.load, returning none on a parse failure
caught by the except branch. The second component collects the warning
messages emitted by the function: the source emits none on any path. -/
def loadStats (parse : String → Option StatsFile) (file : Option String) :
    StatsFile × List String :=
  match file with
  | none => ([], [])
  | some content =>
    match parse content with
    | some s => (s, [])
    | none => ([], [])

/-! ## Dictionary lemmas -/

theorem dictGet?_dictInsert_self {κ α : Type} [DecidableEq κ] (k : κ) (v : α)
    (m : List (κ × α)) : dictGet? k (dictInsert k v m) = some v := by
  induction m with
  | nil => simp [dictInsert, dictGet?]
  | cons q rest ih =>
    obtain ⟨k', v'⟩ := q
    by_cases h : k' = k
    · simp [dictInsert, dictGet?, h]
    · simp [dictInsert, dictGet?, h, ih]

theorem dictGet?_dictInsert_ne {κ α : Type} [DecidableEq κ] (k k₀ : κ) (v : α)
    (m : List (κ × α)) (hne : k₀ ≠ k) :
    dictGet? k₀ (dictInsert k v m) = dictGet? k₀ m := by
  induction m with
  | nil => simp [dictInsert, dictGet?, Ne.symm hne]
  | cons q rest ih =>
    obtain ⟨k', v'⟩ := q
    by_cases h : k' = k
    · subst h
      simp [dictInsert, dictGet?, Ne.symm hne]
    · by_cases h0 : k' = k₀
      · subst h0
        simp [dictInsert, dictGet?, h, hne]
      · simp [dictInsert, dictGet?, h, h0, ih]

theorem mem_dictInsert {κ α : Type} [DecidableEq κ] (k : κ) (v : α)
    (m : List (κ × α)) (p : κ × α) (h : p ∈ dictInsert k v m) :
    p = (k, v) ∨ p ∈ m := by
  induction m with
  | nil => simpa [dictInsert] using h
  | cons q rest ih =>
    obtain ⟨k', v'⟩ := q
    by_cases hk : k' = k
    · simp only [dictInsert, if_pos hk, List.mem_cons] at h
      rcases h with h | h
      · exact Or.inl h
      · exact Or.inr (List.mem_cons_of_mem _ h)
    · simp only [dictInsert, if_neg hk, List.mem_cons] at h
      rcases h with h | h
      · exact Or.inr (by simp [h])
      · rcases ih h with h' | h'
        · exact Or.inl h'
        · exact Or.inr (List.mem_cons_of_mem _ h')

theorem dictGet?_mem {κ α : Type} [DecidableEq κ] (k : κ) (v : α)
    (m : List (κ × α)) (h : dictGet? k m = some v) : (k, v) ∈ m := by
  induction m with
  | nil => simp [dictGet?] at h
  | cons q rest ih =>
    obtain ⟨k', v'⟩ := q
    by_cases hk : k' = k
    · subst hk
      simp [dictGet?] at h
      subst h
      exact List.mem_cons_self _ _
    · simp only [dictGet?, if_neg hk] at h
      exact List.mem_cons_of_mem _ (ih h)

/-! ## Substring-search lemmas -/

theorem findSub_eq_some (pat : List Char) :
    ∀ (l : List Char) (i : Nat), findSub pat l = some i →
      startsWith pat (l.drop i) = true ∧
      ∀ j, j < i → startsWith pat (l.drop j) = false := by
  intro l
  induction l with
  | nil =>
    intro i h
    simp only [findSub] at h
    by_cases hs : startsWith pat [] = true
    · rw [if_pos hs] at h
      cases h
      exact ⟨hs, by intro j hj; omega⟩
    · rw [if_neg hs] at h
      cases h
  | cons c rest ih =>
    intro i h
    simp only [findSub] at h
    by_cases hs : startsWith pat (c :: rest) = true
    · rw [if_pos hs] at h
      cases h
      exact ⟨hs, by intro j hj; omega⟩
    · rw [if_neg hs] at h
      cases hf : findSub pat rest with
      | none => rw [hf] at h; simp at h
      | some i0 =>
        rw [hf] at h
        simp at h
        subst h
        obtain ⟨h1, h2⟩ := ih i0 hf
        refine ⟨by simpa [List.drop_succ_cons] using h1, ?_⟩
        intro j hj
        cases j with
        | zero =>
          simp only [Bool.not_eq_true] at hs
          exact hs
        | succ j0 =>
          simpa [List.drop_succ_cons] using h2 j0 (by omega)

theorem findSub_eq_none (pat : List Char) :
    ∀ (l : List Char), findSub pat l = none →
      ∀ j, startsWith pat (l.drop j) = false := by
  intro l
  induction l with
  | nil =>
    intro h j
    simp only [findSub] at h
    by_cases hs : startsWith pat [] = true
    · rw [if_pos hs] at h; cases h
    · simp only [Bool.not_eq_true] at hs
      simpa [List.drop_nil] using hs
  | cons c rest ih =>
    intro h j
    simp only [findSub] at h
    by_cases hs : startsWith pat (c :: rest) = true
    · rw [if_pos hs] at h; cases h
    · rw [if_neg hs] at h
      cases hf : findSub pat rest with
      | some i0 => rw [hf] at h; simp at h
      | none =>
        cases j with
        | zero =>
          simp only [Bool.not_eq_true] at hs
          exact hs
        | succ j0 => simpa [List.drop_succ_cons] using ih hf j0

/-! ## Answer-key letter invariant -/

theorem isOptionLetter_toLower (c : Char) (h : isOptionLetter c = true) :
    isOptionLetter c.toLower = true := by
  simp only [isOptionLetter, Bool.or_eq_true, decide_eq_true_eq] at h
  rcases h with ((h | h) | h) | h <;> subst h <;> decide

theorem keyLetterOk_toLower (ci : Bool) (c : Char) (h : keyLetterOk ci c = true) :
    isOptionLetter c.toLower = true := by
  cases ci
  · simp only [keyLetterOk, if_neg] at h
    simp at h
    exact isOptionLetter_toLower c h
  · simpa [keyLetterOk] using h

theorem eatKeyLetter_letter (ci : Bool) (rest : List Char) (c : Char)
    (tail : List Char) (h : eatKeyLetter ci rest = some (c, tail)) :
    isOptionLetter c.toLower = true := by
  cases rest with
  | nil => cases h
  | cons c' t =>
    simp only [eatKeyLetter] at h
    by_cases hok : keyLetterOk ci c' = true
    · rw [if_pos hok] at h
      cases h
      exact keyLetterOk_toLower _ _ hok
    · rw [if_neg hok] at h
      cases h

theorem matchKeyRow_letter (ci : Bool) (line : List Char) (n : Nat) (c : Char)
    (h : matchKeyRow ci line = some (n, c)) : isOptionLetter c = true := by
  unfold matchKeyRow at h
  simp only [Option.bind_eq_some'] at h
  obtain ⟨p, hd, rest, hw, q, hq, h⟩ := h
  split at h
  · cases h
    exact eatKeyLetter_letter ci rest q.1 q.2 (by simpa using hq)
  · cases h

theorem foldKeyRows_letters (ci : Bool) (lines : List (List Char)) :
    ∀ (init : List (Nat × Char)), (∀ p ∈ init, isOptionLetter p.2 = true) →
      ∀ p ∈ lines.foldl
          (fun key line =>
            match matchKeyRow ci (strip line) with
            | some (n, c) => dictInsert n c key
            | none => key) init,
        isOptionLetter p.2 = true := by
  induction lines with
  | nil =>
    intro init hi p hp
    exact hi p hp
  | cons l rest ih =>
    intro init hi p hp
    simp only [List.foldl_cons] at hp
    cases hm : matchKeyRow ci (strip l) with
    | none =>
      rw [hm] at hp
      exact ih init hi p hp
    | some q =>
      obtain ⟨n, c⟩ := q
      rw [hm] at hp
      refine ih _ ?_ p hp
      intro p' hp'
      rcases mem_dictInsert _ _ _ _ hp' with h | h
      · subst h
        exact matchKeyRow_letter ci (strip l) n c hm
      · exact hi p' h

theorem scanKeyRows_letters (ci : Bool) (t : List Char) :
    ∀ p ∈ scanKeyRows ci t, isOptionLetter p.2 = true := by
  unfold scanKeyRows
  exact foldKeyRows_letters ci (splitlines t) [] (by simp)

/-! ## Claim C7 -/

/-- Claim C7, counterexample: the CS parse_answer_key locates its marker by
a case-sensitive search, not case-insensitively as claimed. On a text whose
marker differs from the exact form only in the case of its ASCII first
letter, the source parser falls back to scanning the whole text and keeps
the key row that precedes the marker, while the case-insensitive behaviour
described by the claim would parse only the text from the marker on. -/
theorem claim7_counterexample :
    parseAnswerKeyCs ("2 b\nklíč odpovědí\n1 a".toList) = [(2, 'b'), (1, 'a')] ∧
    parseAnswerKeyCsSpec ("2 b\nklíč odpovědí\n1 a".toList) = [(1, 'a')] ∧
    parseAnswerKeyCs ("2 b\nklíč odpovědí\n1 a".toList) ≠
      parseAnswerKeyCsSpec ("2 b\nklíč odpovědí\n1 a".toList) := by
  refine ⟨?_, ?_, ?_⟩ <;> decide

/-- Claim C7 (amended): the EN answer-key parser locates the first
occurrence of its key-section marker case-insensitively and parses only the
text from that point on, while the CS parser locates its marker by an exact
case-sensitive search; for every input in which the respective marker is
absent, the whole text is scanned instead; parsing is total and every
produced entry maps an ordinal to a lowercase option letter. -/
theorem claim7_answer_key_parsing :
    (∀ t i, enMarkerIdx t = some i →
      parseAnswerKeyEn t = scanKeyRows true (t.drop i) ∧
      startsWith ("answer key".toList) ((t.map Char.toLower).drop i) = true ∧
      ∀ j, j < i → startsWith ("answer key".toList) ((t.map Char.toLower).drop j) = false) ∧
    (∀ t, enMarkerIdx t = none →
      parseAnswerKeyEn t = scanKeyRows true t ∧
      ∀ j, startsWith ("answer key".toList) ((t.map Char.toLower).drop j) = false) ∧
    (∀ t i, csMarkerIdx t = some i →
      parseAnswerKeyCs t = scanKeyRows false (t.drop i) ∧
      startsWith ("Klíč odpovědí".toList) (t.drop i) = true ∧
      ∀ j, j < i → startsWith ("Klíč odpovědí".toList) (t.drop j) = false) ∧
    (∀ t, csMarkerIdx t = none →
      parseAnswerKeyCs t = scanKeyRows false t ∧
      ∀ j, startsWith ("Klíč odpovědí".toList) (t.drop j) = false) ∧
    (∀ t, ∀ p ∈ parseAnswerKeyEn t, isOptionLetter p.2 = true) ∧
    (∀ t, ∀ p ∈ parseAnswerKeyCs t, isOptionLetter p.2 = true) := by
  refine ⟨?_, ?_, ?_, ?_, ?_, ?_⟩
  · intro t i h
    refine ⟨?_, (findSub_eq_some _ _ i h).1, (findSub_eq_some _ _ i h).2⟩
    unfold parseAnswerKeyEn
    rw [h]
  · intro t h
    refine ⟨?_, findSub_eq_none _ _ h⟩
    unfold parseAnswerKeyEn
    rw [h]
  · intro t i h
    refine ⟨?_, (findSub_eq_some _ _ i h).1, (findSub_eq_some _ _ i h).2⟩
    unfold parseAnswerKeyCs
    rw [h]
  · intro t h
    refine ⟨?_, findSub_eq_none _ _ h⟩
    unfold parseAnswerKeyCs
    rw [h]
  · intro t p hp
    unfold parseAnswerKeyEn at hp
    cases h : enMarkerIdx t with
    | some i =>
      rw [h] at hp
      exact scanKeyRows_letters _ _ p hp
    | none =>
      rw [h] at hp
      exact scanKeyRows_letters _ _ p hp
  · intro t p hp
    unfold parseAnswerKeyCs at hp
    cases h : csMarkerIdx t with
    | some i =>
      rw [h] at hp
      exact scanKeyRows_letters _ _ p hp
    | none =>
      rw [h] at hp
      exact scanKeyRows_letters _ _ p hp

/-- Witness for claim C7: the amended theorem applied to a concrete EN
answer text whose marker occurs at index 2. -/
theorem claim7_answer_key_parsing_witness :
    parseAnswerKeyEn ("x\nAnswer Key\n1 b".toList) =
      scanKeyRows true (("x\nAnswer Key\n1 b".toList).drop 2) :=
  (claim7_answer_key_parsing.1 ("x\nAnswer Key\n1 b".toList) 2 (by decide)).1

/-! ## Claim C9 -/

/-- Claim C9, counterexample: for an existing but unparseable stats file the
source catches the error and returns the empty record, but emits no warning
message, contrary to the claim that a warning is logged. -/
theorem claim9_counterexample :
    (loadStats (fun _ => none) (some "garbage")).1 = [] ∧
    (loadStats (fun _ => none) (some "garbage")).2 = [] :=
  ⟨rfl, rfl⟩

/-- Claim C9 (amended): loading user statistics never fails: an absent
stats file yields the empty record, an existing but unparseable file has
the error caught and yields the empty record (with no warning logged), and
a parseable file yields its content. -/
theorem claim9_load_stats :
    (∀ parse, loadStats parse none = ([], [])) ∧
    (∀ parse content, parse content = none →
      loadStats parse (some content) = ([], [])) ∧
    (∀ parse content s, parse content = some s →
      loadStats parse (some content) = (s, [])) := by
  refine ⟨fun parse => rfl, ?_, ?_⟩
  · intro parse content h
    simp only [loadStats]
    rw [h]
  · intro parse content s h
    simp only [loadStats]
    rw [h]

/-- Witness for claim C9: the amended theorem applied to a concrete parse
failure. -/
theorem claim9_load_stats_witness :
    loadStats (fun _ => none) (some "bad") = ([], []) :=
  claim9_load_stats.2.1 (fun _ => none) "bad" rfl

/-! ## Claim C2 -/

theorem abcd_indexOf_lt_four (c : Char) (h : isOptionLetter c = true) :
    List.indexOf c abcd < 4 := by
  simp only [isOptionLetter, Bool.or_eq_true, decide_eq_true_eq] at h
  rcases h with ((h | h) | h) | h <;> subst h <;> decide

theorem buildRecords_mem_ids (setId language : String) (key : List (Nat × Char)) :
    ∀ (questions : List (Nat × ParsedBlock)) (n : Nat),
      (∃ r ∈ (buildRecords setId language key questions).1, r.id = n) ↔
        ((∃ b, (n, b) ∈ questions) ∧ (dictGet? n key).isSome) := by
  intro questions
  induction questions with
  | nil =>
    intro n
    simp [buildRecords]
  | cons q rest ih =>
    intro n
    obtain ⟨m, blk⟩ := q
    by_cases hnm : n = m
    · subst hnm
      cases hk : dictGet? n key with
      | none =>
        simp only [buildRecords, hk]
        rw [ih n]
        simp [hk]
      | some letter =>
        simp only [buildRecords, hk]
        constructor
        · intro _
          exact ⟨⟨blk, by simp⟩, by simp [hk]⟩
        · intro _
          exact ⟨_, List.mem_cons_self _ _, rfl⟩
    · cases hk : dictGet? m key with
      | none =>
        simp only [buildRecords, hk]
        rw [ih n]
        constructor
        · rintro ⟨⟨b, hb⟩, hs⟩
          exact ⟨⟨b, by simp [hb]⟩, hs⟩
        · rintro ⟨⟨b, hb⟩, hs⟩
          rcases List.mem_cons.mp hb with h | h
          · cases h
            exact absurd rfl hnm
          · exact ⟨⟨b, h⟩, hs⟩
      | some letter =>
        simp only [buildRecords, hk]
        constructor
        · rintro ⟨r, hr, hid⟩
          rcases List.mem_cons.mp hr with h | h
          · subst h
            simp at hid
            exact absurd hid.symm hnm
          · rcases (ih n).mp ⟨r, h, hid⟩ with ⟨⟨b, hb⟩, hs⟩
            exact ⟨⟨b, by simp [hb]⟩, hs⟩
        · rintro ⟨⟨b, hb⟩, hs⟩
          rcases List.mem_cons.mp hb with h | h
          · cases h
            exact absurd rfl hnm
          · rcases (ih n).mpr ⟨⟨b, h⟩, hs⟩ with ⟨r, hr, hid⟩
            exact ⟨r, by simp [hr], hid⟩

theorem buildRecords_records (setId language : String) (key : List (Nat × Char))
    (hkey : ∀ p ∈ key, isOptionLetter p.2 = true) :
    ∀ (questions : List (Nat × ParsedBlock)),
      ∀ r ∈ (buildRecords setId language key questions).1,
        ∃ letter, dictGet? r.id key = some letter ∧
          r.correctIndex = List.indexOf letter abcd ∧ r.correctIndex < 4 ∧
          r.set = setId ∧ r.language = language := by
  intro questions
  induction questions with
  | nil =>
    intro r hr
    simp [buildRecords] at hr
  | cons q rest ih =>
    intro r hr
    obtain ⟨m, blk⟩ := q
    cases hk : dictGet? m key with
    | none =>
      simp only [buildRecords, hk] at hr
      exact ih r hr
    | some letter =>
      simp only [buildRecords, hk] at hr
      rcases List.mem_cons.mp hr with h | h
      · subst h
        refine ⟨letter, by simpa using hk, rfl, ?_, rfl, rfl⟩
        exact abcd_indexOf_lt_four letter (hkey (m, letter) (dictGet?_mem m letter key hk))
      · exact ih r h

theorem buildRecords_warnings (setId language : String) (key : List (Nat × Char)) :
    ∀ (questions : List (Nat × ParsedBlock)) (n : Nat) (s : String),
      (n, s) ∈ (buildRecords setId language key questions).2 ↔
        (s = setId ∧ (∃ b, (n, b) ∈ questions) ∧ dictGet? n key = none) := by
  intro questions
  induction questions with
  | nil =>
    intro n s
    simp [buildRecords]
  | cons q rest ih =>
    intro n s
    obtain ⟨m, blk⟩ := q
    by_cases hnm : n = m
    · subst hnm
      cases hk : dictGet? n key with
      | none =>
        have hsplit : buildRecords setId language key ((n, blk) :: rest) =
            ((buildRecords setId language key rest).1,
              (n, setId) :: (buildRecords setId language key rest).2) := by
          simp only [buildRecords, hk]
        rw [hsplit]
        constructor
        · intro h
          rcases List.mem_cons.mp h with h | h
          · cases h
            exact ⟨rfl, ⟨blk, by simp⟩, rfl⟩
          · rcases (ih n s).mp h with ⟨h1, _, h3⟩
            exact ⟨h1, ⟨blk, by simp⟩, by simp⟩
        · rintro ⟨h1, _, _⟩
          subst h1
          exact List.mem_cons_self _ _
      | some letter =>
        simp only [buildRecords, hk]
        rw [ih n s]
        simp [hk]
    · cases hk : dictGet? m key with
      | none =>
        simp only [buildRecords, hk]
        constructor
        · intro h
          rcases List.mem_cons.mp h with h | h
          · cases h
            exact absurd rfl hnm
          · rcases (ih n s).mp h with ⟨h1, ⟨b, hb⟩, h3⟩
            exact ⟨h1, ⟨b, by simp [hb]⟩, h3⟩
        · rintro ⟨h1, ⟨b, hb⟩, h3⟩
          rcases List.mem_cons.mp hb with h | h
          · cases h
            exact absurd rfl hnm
          · exact List.mem_cons_of_mem _ ((ih n s).mpr ⟨h1, ⟨b, h⟩, h3⟩)
      | some letter =>
        simp only [buildRecords, hk]
        rw [ih n s]
        constructor
        · rintro ⟨h1, ⟨b, hb⟩, h3⟩
          exact ⟨h1, ⟨b, by simp [hb]⟩, h3⟩
        · rintro ⟨h1, ⟨b, hb⟩, h3⟩
          rcases List.mem_cons.mp hb with h | h
          · cases h
            exact absurd rfl hnm
          · exact ⟨h1, ⟨b, h⟩, h3⟩

/-- Claim C2: the set builder emits a record exactly for the ordinals
present in both the parsed-blocks mapping and the answer-key mapping; every
emitted record takes its correct index from the position of its key letter
in the fixed order a, b, c, d, which lies in {0,1,2,3} since the key holds
option letters; and an ordinal present in the blocks but absent from the
key yields a warning naming the ordinal and the set, and no record. -/
theorem claim2_build_records (setId language : String) (key : List (Nat × Char))
    (questions : List (Nat × ParsedBlock))
    (hkey : ∀ p ∈ key, isOptionLetter p.2 = true) :
    (∀ n, (∃ r ∈ (buildRecords setId language key questions).1, r.id = n) ↔
      ((∃ b, (n, b) ∈ questions) ∧ (dictGet? n key).isSome)) ∧
    (∀ r ∈ (buildRecords setId language key questions).1,
      ∃ letter, dictGet? r.id key = some letter ∧
        r.correctIndex = List.indexOf letter abcd ∧ r.correctIndex < 4 ∧
        r.set = setId ∧ r.language = language) ∧
    (∀ n s, (n, s) ∈ (buildRecords setId language key questions).2 ↔
      (s = setId ∧ (∃ b, (n, b) ∈ questions) ∧ dictGet? n key = none)) :=
  ⟨buildRecords_mem_ids setId language key questions,
   buildRecords_records setId language key hkey questions,
   buildRecords_warnings setId language key questions⟩

/-- Witness for claim C2: the theorem applied to the concrete scenario of
the specification, one parsed block with ordinal 1 and the key entry 1 b,
giving a record with correct index 1. -/
theorem claim2_build_records_witness :
    (∃ r ∈ (buildRecords "A" "en" [(1, 'b')]
        [(1, ⟨"What is X?".toList, [[], [], [], []]⟩)]).1, r.id = 1) ∧
    (buildRecords "A" "en" [(1, 'b')]
        [(1, ⟨"What is X?".toList, [[], [], [], []]⟩)]).1.map
      (fun r => r.correctIndex) = [1] := by
  constructor
  · exact (claim2_build_records "A" "en" [(1, 'b')]
      [(1, ⟨"What is X?".toList, [[], [], [], []]⟩)] (by decide)).1 1 |>.mpr
      ⟨⟨⟨"What is X?".toList, [[], [], [], []]⟩, by simp⟩, by decide⟩
  · decide

/-! ## Claim C6 -/

theorem getSeen_updateQ (language : String)
    (ans : String × Nat × String → Option Nat) (qstats : QStats)
    (q : QuestionRecord) (key : String) :
    getSeen (updateQ language ans qstats q) key =
      getSeen qstats key + (if mkKey language q.set q.id = key then 1 else 0) := by
  by_cases h : mkKey language q.set q.id = key
  · simp [updateQ, getSeen, h, dictGet?_dictInsert_self]
  · simp [updateQ, getSeen, h, dictGet?_dictInsert_ne _ _ _ _ (Ne.symm h)]

theorem getCorrect_updateQ (language : String)
    (ans : String × Nat × String → Option Nat) (qstats : QStats)
    (q : QuestionRecord) (key : String) :
    getCorrect (updateQ language ans qstats q) key =
      getCorrect qstats key +
        (if mkKey language q.set q.id = key ∧ isCorrectQ language ans q = true
          then 1 else 0) := by
  by_cases h : mkKey language q.set q.id = key
  · by_cases hc : isCorrectQ language ans q = true
    · simp [updateQ, getCorrect, h, hc, dictGet?_dictInsert_self]
    · simp [updateQ, getCorrect, h, hc, dictGet?_dictInsert_self]
  · simp [updateQ, getCorrect, h, dictGet?_dictInsert_ne _ _ _ _ (Ne.symm h)]

theorem getSeen_updateStatsForRun (language : String)
    (ans : String × Nat × String → Option Nat) :
    ∀ (qs : List QuestionRecord) (qstats : QStats) (key : String),
      getSeen (updateStatsForRun language ans qs qstats) key =
        getSeen qstats key +
          qs.countP (fun q => mkKey language q.set q.id == key) := by
  intro qs
  induction qs with
  | nil =>
    intro qstats key
    simp [updateStatsForRun]
  | cons q rest ih =>
    intro qstats key
    simp only [updateStatsForRun, List.foldl_cons] at ih ⊢
    rw [ih (updateQ language ans qstats q) key, getSeen_updateQ,
      List.countP_cons]
    by_cases h : mkKey language q.set q.id = key
    · simp only [h, beq_self_eq_true, if_true]
      omega
    · simp only [if_neg h]
      have hb : (mkKey language q.set q.id == key) = false := by
        simpa using h
      rw [hb]
      simp

theorem getCorrect_updateStatsForRun (language : String)
    (ans : String × Nat × String → Option Nat) :
    ∀ (qs : List QuestionRecord) (qstats : QStats) (key : String),
      getCorrect (updateStatsForRun language ans qs qstats) key =
        getCorrect qstats key +
          qs.countP (fun q =>
            (mkKey language q.set q.id == key) && isCorrectQ language ans q) := by
  intro qs
  induction qs with
  | nil =>
    intro qstats key
    simp [updateStatsForRun]
  | cons q rest ih =>
    intro qstats key
    simp only [updateStatsForRun, List.foldl_cons] at ih ⊢
    rw [ih (updateQ language ans qstats q) key, getCorrect_updateQ,
      List.countP_cons]
    by_cases h : mkKey language q.set q.id = key
    · by_cases hc : isCorrectQ language ans q = true
      · simp only [h, hc, beq_self_eq_true, Bool.true_and, if_true, and_self]
        omega
      · have hb : isCorrectQ language ans q = false := by
          simpa using hc
        simp only [h, hb, beq_self_eq_true, Bool.true_and, if_false]
        simp [hc]
    · have hb : (mkKey language q.set q.id == key) = false := by
        simpa using h
      simp [h, hb]

theorem statsTop_seen_mono (u language : String)
    (ans : String × Nat × String → Option Nat) (qs : List QuestionRecord)
    (stats : StatsFile) (u₀ key : String) :
    getSeen ((dictGet? u₀ (updateStatsTop u language ans qs stats)).getD []) key ≥
      getSeen ((dictGet? u₀ stats).getD []) key := by
  simp only [updateStatsTop]
  by_cases h : u₀ = u
  · subst h
    rw [dictGet?_dictInsert_self]
    simp only [Option.getD_some]
    rw [getSeen_updateStatsForRun]
    omega
  · rw [dictGet?_dictInsert_ne _ _ _ _ h]

theorem statsTop_correct_mono (u language : String)
    (ans : String × Nat × String → Option Nat) (qs : List QuestionRecord)
    (stats : StatsFile) (u₀ key : String) :
    getCorrect ((dictGet? u₀ (updateStatsTop u language ans qs stats)).getD []) key ≥
      getCorrect ((dictGet? u₀ stats).getD []) key := by
  simp only [updateStatsTop]
  by_cases h : u₀ = u
  · subst h
    rw [dictGet?_dictInsert_self]
    simp only [Option.getD_some]
    rw [getCorrect_updateStatsForRun]
    omega
  · rw [dictGet?_dictInsert_ne _ _ _ _ h]

theorem runsFold_seen_mono
    (runs : List (String × String × (String × Nat × String → Option Nat) ×
      List QuestionRecord)) :
    ∀ (stats : StatsFile) (u key : String),
      getSeen ((dictGet? u (runs.foldl
          (fun st r => updateStatsTop r.1 r.2.1 r.2.2.1 r.2.2.2 st) stats)).getD [])
        key ≥ getSeen ((dictGet? u stats).getD []) key := by
  induction runs with
  | nil =>
    intro stats u key
    simp
  | cons r rest ih =>
    intro stats u key
    simp only [List.foldl_cons]
    exact le_trans (statsTop_seen_mono r.1 r.2.1 r.2.2.1 r.2.2.2 stats u key)
      (ih (updateStatsTop r.1 r.2.1 r.2.2.1 r.2.2.2 stats) u key)

theorem runsFold_correct_mono
    (runs : List (String × String × (String × Nat × String → Option Nat) ×
      List QuestionRecord)) :
    ∀ (stats : StatsFile) (u key : String),
      getCorrect ((dictGet? u (runs.foldl
          (fun st r => updateStatsTop r.1 r.2.1 r.2.2.1 r.2.2.2 st) stats)).getD [])
        key ≥ getCorrect ((dictGet? u stats).getD []) key := by
  induction runs with
  | nil =>
    intro stats u key
    simp
  | cons r rest ih =>
    intro stats u key
    simp only [List.foldl_cons]
    exact le_trans (statsTop_correct_mono r.1 r.2.1 r.2.2.1 r.2.2.2 stats u key)
      (ih (updateStatsTop r.1 r.2.1 r.2.2.1 r.2.2.2 stats) u key)

/-- Claim C6: the stats-recording operation increments seen by one per
recorded question with the given key and correct by one exactly when the
stored answer equals the correct index; it creates the key with zero counts
when absent (so a fresh key holds seen one after its first recording); and
across any sequence of recorded runs, for every user and question key,
neither counter ever decreases. -/
theorem claim6_stats_monotone :
    (∀ (language : String) (ans : String × Nat × String → Option Nat)
        (qs : List QuestionRecord) (qstats : QStats) (key : String),
      getSeen (updateStatsForRun language ans qs qstats) key =
        getSeen qstats key +
          qs.countP (fun q => mkKey language q.set q.id == key) ∧
      getCorrect (updateStatsForRun language ans qs qstats) key =
        getCorrect qstats key +
          qs.countP (fun q =>
            (mkKey language q.set q.id == key) && isCorrectQ language ans q)) ∧
    (∀ (language : String) (ans : String × Nat × String → Option Nat)
        (qstats : QStats) (q : QuestionRecord),
      dictGet? (mkKey language q.set q.id) qstats = none →
      dictGet? (mkKey language q.set q.id) (updateQ language ans qstats q) =
        some ⟨1, if isCorrectQ language ans q then 1 else 0⟩) ∧
    (∀ (runs : List (String × String × (String × Nat × String → Option Nat) ×
        List QuestionRecord)) (stats : StatsFile) (u key : String),
      getSeen ((dictGet? u (runs.foldl
          (fun st r => updateStatsTop r.1 r.2.1 r.2.2.1 r.2.2.2 st) stats)).getD [])
        key ≥ getSeen ((dictGet? u stats).getD []) key ∧
      getCorrect ((dictGet? u (runs.foldl
          (fun st r => updateStatsTop r.1 r.2.1 r.2.2.1 r.2.2.2 st) stats)).getD [])
        key ≥ getCorrect ((dictGet? u stats).getD []) key) := by
  refine ⟨?_, ?_, ?_⟩
  · intro language ans qs qstats key
    exact ⟨getSeen_updateStatsForRun language ans qs qstats key,
      getCorrect_updateStatsForRun language ans qs qstats key⟩
  · intro language ans qstats q h
    simp [updateQ, h, dictGet?_dictInsert_self]
  · intro runs stats u key
    exact ⟨runsFold_seen_mono runs stats u key,
      runsFold_correct_mono runs stats u key⟩

/-- Witness for claim C6: the creation clause of the theorem applied to an
empty stats map and a concrete unanswered question. -/
theorem claim6_stats_monotone_witness :
    dictGet? (mkKey "en" "A" 1)
      (updateQ "en" (fun _ => none) []
        ⟨"A", 1, "en", [], [[], [], [], []], 0⟩) = some ⟨1, 0⟩ := by
  have h := claim6_stats_monotone.2.1 "en" (fun _ => none) []
    ⟨"A", 1, "en", [], [[], [], [], []], 0⟩ rfl
  simpa using h

/-! ## Claim C10 -/

/-- Claim C10: a question of a finished run with no stored answer is
handled totally: the scoring comparison counts it as incorrect, and the
stats update still increments its seen counter by one while leaving its
correct counter unchanged; both operations are total functions of the
model, so neither raises. -/
theorem claim10_missing_answer (language : String)
    (answers : String × Nat × String → Option Nat) (q : QuestionRecord)
    (h : answers (qidOf language q) = none) :
    isCorrectQ language answers q = false ∧
    (∀ qs, countCorrect language answers (q :: qs) =
      countCorrect language answers qs) ∧
    (∀ qstats : QStats,
      getSeen (updateQ language answers qstats q) (mkKey language q.set q.id) =
        getSeen qstats (mkKey language q.set q.id) + 1 ∧
      getCorrect (updateQ language answers qstats q) (mkKey language q.set q.id) =
        getCorrect qstats (mkKey language q.set q.id)) := by
  have hc : isCorrectQ language answers q = false := by
    simp [isCorrectQ, h]
  refine ⟨hc, ?_, ?_⟩
  · intro qs
    simp [countCorrect, List.countP_cons, hc]
  · intro qstats
    constructor
    · rw [getSeen_updateQ]
      simp
    · rw [getCorrect_updateQ]
      simp [hc]

/-- Witness for claim C10: the theorem applied to a concrete question with
no stored answer, starting from empty statistics. -/
theorem claim10_missing_answer_witness :
    isCorrectQ "en" (fun _ => none)
      ⟨"A", 1, "en", [], [[], [], [], []], 0⟩ = false ∧
    getSeen (updateQ "en" (fun _ => none) []
        ⟨"A", 1, "en", [], [[], [], [], []], 0⟩) (mkKey "en" "A" 1) = 1 := by
  have h := claim10_missing_answer "en" (fun _ => none)
    ⟨"A", 1, "en", [], [[], [], [], []], 0⟩ rfl
  exact ⟨h.1, by simpa using (h.2.2 []).1⟩

/-! ## Claim C3 -/

theorem roundHalfEven_intCast (k : ℤ) : roundHalfEven (k : ℚ) = k := by
  unfold roundHalfEven
  rw [Int.floor_intCast]
  norm_num

/-- Claim C3: whenever the percentage is exactly representable to one
decimal place (the total divides a thousand times the correct count), the
reported score equals exactly the correct count over the total, scaled to a
percentage, with no rounding drift; the correct count is the number of
questions whose stored answer equals the correct index. -/
theorem claim3_score_exact (language : String)
    (ans : String × Nat × String → Option Nat) (qs : List QuestionRecord)
    (h0 : qs.length ≠ 0)
    (hdiv : (qs.length : ℤ) ∣ 1000 * (countCorrect language ans qs : ℤ)) :
    scorePercent language ans qs =
      (countCorrect language ans qs : ℚ) / (qs.length : ℚ) * 100 := by
  have hn : (qs.length : ℚ) ≠ 0 := by
    exact_mod_cast h0
  obtain ⟨k, hk⟩ := hdiv
  have hk' : (1000 : ℚ) * (countCorrect language ans qs : ℚ) =
      (qs.length : ℚ) * (k : ℚ) := by
    exact_mod_cast hk
  have hx : (countCorrect language ans qs : ℚ) / (qs.length : ℚ) * 100 * 10 =
      (k : ℚ) := by
    field_simp
    linarith [hk']
  unfold scorePercent pyRound1
  rw [hx, roundHalfEven_intCast]
  rw [← hx]
  ring

/-- Witness for claim C3: the theorem applied to a concrete run of four
questions with three correct answers, giving a score of exactly 75. -/
theorem claim3_score_exact_witness :
    scorePercent "en" (fun p => if p.2.1 = 4 then some 1 else some 0)
      [⟨"A", 1, "en", [], [[], [], [], []], 0⟩,
       ⟨"A", 2, "en", [], [[], [], [], []], 0⟩,
       ⟨"A", 3, "en", [], [[], [], [], []], 0⟩,
       ⟨"A", 4, "en", [], [[], [], [], []], 0⟩] = 75 := by
  have h := claim3_score_exact "en" (fun p => if p.2.1 = 4 then some 1 else some 0)
    [⟨"A", 1, "en", [], [[], [], [], []], 0⟩,
     ⟨"A", 2, "en", [], [[], [], [], []], 0⟩,
     ⟨"A", 3, "en", [], [[], [], [], []], 0⟩,
     ⟨"A", 4, "en", [], [[], [], [], []], 0⟩] (by decide) ⟨750, by decide⟩
  have hc : countCorrect "en" (fun p => if p.2.1 = 4 then some 1 else some 0)
      [⟨"A", 1, "en", [], [[], [], [], []], 0⟩,
       ⟨"A", 2, "en", [], [[], [], [], []], 0⟩,
       ⟨"A", 3, "en", [], [[], [], [], []], 0⟩,
       ⟨"A", 4, "en", [], [[], [], [], []], 0⟩] = 3 := by decide
  rw [h, hc]
  norm_num

/-! ## Claim C4 -/

/-- Claim C4: weak-question selection returns exactly the questions of the
set whose stats record exists, has seen greater than zero, and has success
rate below seven tenths, as a sublist of the set (preserving its order); a
question with no record or with seen zero is excluded; when the weak subset
is empty the session layer falls back to the full set, when it is non-empty
it is used, and standard mode always returns the full set. -/
theorem claim4_weak_selection (language username : String) (stats : StatsFile)
    (userQ : QStats) (questions : List QuestionRecord) :
    List.Sublist (selectWeak language userQ questions) questions ∧
    (∀ q, q ∈ selectWeak language userQ questions ↔
      (q ∈ questions ∧ ∃ r, dictGet? (mkKey language q.set q.id) userQ = some r ∧
        0 < r.seen ∧ (r.correct : ℚ) / (r.seen : ℚ) < 7 / 10)) ∧
    (selectWeak language ((dictGet? username stats).getD []) questions = [] →
      getQuestionsForMode language username stats questions true = questions) ∧
    (selectWeak language ((dictGet? username stats).getD []) questions ≠ [] →
      getQuestionsForMode language username stats questions true =
        selectWeak language ((dictGet? username stats).getD []) questions) ∧
    getQuestionsForMode language username stats questions false = questions := by
  refine ⟨List.filter_sublist _, ?_, ?_, ?_, by simp [getQuestionsForMode]⟩
  · intro q
    rw [selectWeak, List.mem_filter]
    constructor
    · rintro ⟨hq, hw⟩
      refine ⟨hq, ?_⟩
      cases hr : dictGet? (mkKey language q.set q.id) userQ with
      | none =>
        simp only [isWeakQ, hr] at hw
        cases hw
      | some r =>
        simp only [isWeakQ, hr] at hw
        by_cases hs : r.seen = 0
        · rw [if_pos hs] at hw; cases hw
        · rw [if_neg hs] at hw
          exact ⟨r, rfl, Nat.pos_of_ne_zero hs, of_decide_eq_true hw⟩
    · rintro ⟨hq, r, hr, hs, hrate⟩
      refine ⟨hq, ?_⟩
      simp only [isWeakQ, hr]
      rw [if_neg (Nat.pos_iff_ne_zero.mp hs)]
      exact decide_eq_true hrate
  · intro h
    simp [getQuestionsForMode, h]
  · intro h
    simp [getQuestionsForMode, h]

/-- Witness for claim C4: the theorem applied to the concrete scenario of
the specification: under stats with seen four and correct one on question
A-3 and seen zero on question A-5, targeted mode selects exactly A-3. -/
theorem claim4_weak_selection_witness :
    getQuestionsForMode "en" "u"
        [("u", [("en:A:3", ⟨4, 1⟩), ("en:A:5", ⟨0, 0⟩)])]
        [⟨"A", 3, "en", [], [[], [], [], []], 0⟩,
         ⟨"A", 5, "en", [], [[], [], [], []], 0⟩] true =
      [⟨"A", 3, "en", [], [[], [], [], []], 0⟩] := by
  have h3 : isWeakQ "en" [("en:A:3", ⟨4, 1⟩), ("en:A:5", ⟨0, 0⟩)]
      ⟨"A", 3, "en", [], [[], [], [], []], 0⟩ = true := by
    have hg : dictGet? (mkKey "en" "A" 3)
        [("en:A:3", (⟨4, 1⟩ : StatsRec)), ("en:A:5", ⟨0, 0⟩)] =
        some ⟨4, 1⟩ := rfl
    simp only [isWeakQ, hg]
    norm_num
  have h5 : isWeakQ "en" [("en:A:3", ⟨4, 1⟩), ("en:A:5", ⟨0, 0⟩)]
      ⟨"A", 5, "en", [], [[], [], [], []], 0⟩ = false := by
    have hg : dictGet? (mkKey "en" "A" 5)
        [("en:A:3", (⟨4, 1⟩ : StatsRec)), ("en:A:5", ⟨0, 0⟩)] =
        some ⟨0, 0⟩ := rfl
    simp only [isWeakQ, hg]
    simp
  have hsel : selectWeak "en"
      ((dictGet? "u" [("u", [("en:A:3", ⟨4, 1⟩), ("en:A:5", ⟨0, 0⟩)])]).getD [])
      [⟨"A", 3, "en", [], [[], [], [], []], 0⟩,
       ⟨"A", 5, "en", [], [[], [], [], []], 0⟩] =
      [⟨"A", 3, "en", [], [[], [], [], []], 0⟩] := by
    have hu : (dictGet? "u"
        [("u", [("en:A:3", (⟨4, 1⟩ : StatsRec)), ("en:A:5", ⟨0, 0⟩)])]).getD [] =
        [("en:A:3", (⟨4, 1⟩ : StatsRec)), ("en:A:5", ⟨0, 0⟩)] := rfl
    rw [hu]
    simp [selectWeak, List.filter_cons, h3, h5]
  have h := (claim4_weak_selection "en" "u"
    [("u", [("en:A:3", ⟨4, 1⟩), ("en:A:5", ⟨0, 0⟩)])]
    ((dictGet? "u" [("u", [("en:A:3", ⟨4, 1⟩), ("en:A:5", ⟨0, 0⟩)])]).getD [])
    [⟨"A", 3, "en", [], [[], [], [], []], 0⟩,
     ⟨"A", 5, "en", [], [[], [], [], []], 0⟩]).2.2.2.1
    (by rw [hsel]; simp)
  rw [h, hsel]

/-! ## Claim C5 -/

/-- Claim C5: the stats update of the result view is one-shot: rendering
the result view twice changes nothing beyond the first rendering, any
positive number of renderings equals one rendering, a state with a clear
flag (as produced by re-initialisation) applies exactly one stats update
and sets the flag, and after any rendering the flag is set. -/
theorem claim5_one_shot_stats (username language : String)
    (answers : String × Nat × String → Option Nat)
    (questions : List QuestionRecord) :
    (∀ s : ResultState, showResultsStep username language answers questions
        (showResultsStep username language answers questions s) =
      showResultsStep username language answers questions s) ∧
    (∀ (s : ResultState) (n : Nat), 1 ≤ n →
      (showResultsStep username language answers questions)^[n] s =
        showResultsStep username language answers questions s) ∧
    (∀ stats : StatsFile,
      showResultsStep username language answers questions ⟨stats, false⟩ =
        ⟨updateStatsTop username language answers questions stats, true⟩) ∧
    (∀ s : ResultState,
      (showResultsStep username language answers questions s).statsUpdated = true) := by
  have hidem : ∀ s : ResultState, showResultsStep username language answers questions
      (showResultsStep username language answers questions s) =
      showResultsStep username language answers questions s := by
    intro s
    by_cases h : s.statsUpdated <;> simp [showResultsStep, h]
  refine ⟨hidem, ?_, ?_, ?_⟩
  · intro s n hn
    induction n, hn using Nat.le_induction with
    | base => simp
    | succ n hn ih =>
      rw [Function.iterate_succ_apply', ih]
      exact hidem s
  · intro stats
    simp [showResultsStep]
  · intro s
    by_cases h : s.statsUpdated <;> simp [showResultsStep, h]

/-- Witness for claim C5: two renderings of the result view from a freshly
initialised state equal one rendering. -/
theorem claim5_one_shot_stats_witness :
    (showResultsStep "u" "en" (fun _ => none) [])^[2] ⟨[], false⟩ =
      showResultsStep "u" "en" (fun _ => none) [] ⟨[], false⟩ :=
  (claim5_one_shot_stats "u" "en" (fun _ => none) []).2.1 ⟨[], false⟩ 2 (by decide)

/-! ## Claim C8 -/

theorem splitHeadersGo_pairs_length
    (m : List Char → Option (Nat × List Char)) :
    ∀ (fuel : Nat) (cs : List Char),
      ((splitHeadersGo m fuel cs).2).length = countHeadersGo m fuel cs := by
  intro fuel
  induction fuel with
  | zero =>
    intro cs
    rfl
  | succ f ih =>
    intro cs
    cases cs with
    | nil => rfl
    | cons c rest =>
      simp only [splitHeadersGo, countHeadersGo]
      cases hm : m (c :: rest) with
      | some p =>
        simp [ih]
      | none =>
        simp [ih]

/-- Claim C8, counterexample: a text in which two header matches are
adjacent yields a pair whose block text is empty, against the claim that
every pair has non-empty block text; the match count and pair count are
both two. -/
theorem claim8_counterexample :
    countHeaders matchHeaderEn
      ("Question 1 (1 Point)Question 2 (1 Point)x".toList) = 2 ∧
    (splitHeaders matchHeaderEn
      ("Question 1 (1 Point)Question 2 (1 Point)x".toList)).2 =
      [(1, []), (2, ['x'])] ∧
    ∃ p ∈ (splitHeaders matchHeaderEn
      ("Question 1 (1 Point)Question 2 (1 Point)x".toList)).2, p.2 = [] := by
  refine ⟨by decide, by decide, ⟨(1, []), by decide, rfl⟩⟩

/-- Claim C8 (amended): for every document text, the segmenter yields
exactly as many ordinal-block pairs as there are matches of the header
pattern, for the EN and the CS pattern alike, and a text with zero matches
yields the empty pair sequence rather than an error; a block text may be
empty when nothing separates two consecutive header matches. -/
theorem claim8_segmentation :
    (∀ text, ((splitHeaders matchHeaderEn text).2).length =
      countHeaders matchHeaderEn text) ∧
    (∀ text, countHeaders matchHeaderEn text = 0 →
      (splitHeaders matchHeaderEn text).2 = []) ∧
    (∀ text, ((splitHeaders matchHeaderCs text).2).length =
      countHeaders matchHeaderCs text) ∧
    (∀ text, countHeaders matchHeaderCs text = 0 →
      (splitHeaders matchHeaderCs text).2 = []) := by
  refine ⟨?_, ?_, ?_, ?_⟩
  · intro text
    exact splitHeadersGo_pairs_length matchHeaderEn text.length text
  · intro text h
    have hl := splitHeadersGo_pairs_length matchHeaderEn text.length text
    rw [countHeaders] at h
    rw [h] at hl
    exact List.length_eq_zero.mp hl
  · intro text
    exact splitHeadersGo_pairs_length matchHeaderCs text.length text
  · intro text h
    have hl := splitHeadersGo_pairs_length matchHeaderCs text.length text
    rw [countHeaders] at h
    rw [h] at hl
    exact List.length_eq_zero.mp hl

/-- Witness for claim C8: the zero-match clause of the theorem applied to a
concrete text without any header. -/
theorem claim8_segmentation_witness :
    (splitHeaders matchHeaderEn ("no headers here".toList)).2 = [] :=
  claim8_segmentation.2.1 ("no headers here".toList) (by decide)

/-! ## Claim C1 -/

theorem listMax?_eq_none (l : List Char) : listMax? l = none ↔ l = [] := by
  cases l with
  | nil => simp [listMax?]
  | cons c rest =>
    simp only [listMax?]
    cases listMax? rest <;> simp

theorem listMax?_mem : ∀ (l : List Char) (x : Char), listMax? l = some x → x ∈ l := by
  intro l
  induction l with
  | nil =>
    intro x h
    cases h
  | cons c rest ih =>
    intro x h
    simp only [listMax?] at h
    cases hm : listMax? rest with
    | none =>
      rw [hm] at h
      cases h
      simp
    | some m =>
      rw [hm] at h
      cases h
      rcases max_choice c m with hc | hc <;> rw [hc]
      · simp
      · exact List.mem_cons_of_mem _ (ih m hm)

theorem listMax?_ub : ∀ (l : List Char) (x : Char), listMax? l = some x →
    ∀ y ∈ l, y ≤ x := by
  intro l
  induction l with
  | nil =>
    intro x h
    cases h
  | cons c rest ih =>
    intro x h y hy
    simp only [listMax?] at h
    cases hm : listMax? rest with
    | none =>
      rw [hm] at h
      cases h
      have hrest : rest = [] := (listMax?_eq_none rest).mp hm
      subst hrest
      rcases List.mem_cons.mp hy with hy | hy
      · exact le_of_eq hy
      · cases hy
    | some m =>
      rw [hm] at h
      cases h
      rcases List.mem_cons.mp hy with hy | hy
      · rw [hy]
        exact le_max_left _ _
      · exact le_trans (ih m hm y hy) (le_max_right _ _)

theorem listMax?_eq_some_of (l : List Char) (x : Char) (hx : x ∈ l)
    (hub : ∀ y ∈ l, y ≤ x) : listMax? l = some x := by
  cases hm : listMax? l with
  | none =>
    rw [(listMax?_eq_none l).mp hm] at hx
    cases hx
  | some m =>
    rw [le_antisymm (hub m (listMax?_mem l m hm)) (listMax?_ub l m hm x hx)]

theorem optKeys_dictAppend (k : Char) (ext : List Char) :
    ∀ m : List (Char × List Char), optKeys (dictAppend k ext m) = optKeys m := by
  intro m
  induction m with
  | nil => rfl
  | cons p rest ih =>
    obtain ⟨k', v⟩ := p
    by_cases h : k' = k
    · simp [dictAppend, optKeys, h]
    · simp only [dictAppend, if_neg h]
      simp only [optKeys, List.map_cons] at ih ⊢
      rw [ih]

theorem mem_optKeys_dictInsert (k : Char) (v : List Char)
    (m : List (Char × List Char)) (x : Char)
    (h : x ∈ optKeys (dictInsert k v m)) : x = k ∨ x ∈ optKeys m := by
  simp only [optKeys, List.mem_map] at h
  obtain ⟨p, hp, hx⟩ := h
  rcases mem_dictInsert k v m p hp with h' | h'
  · subst h'
    exact Or.inl hx.symm
  · right
    simp only [optKeys, List.mem_map]
    exact ⟨p, h', hx⟩

theorem self_mem_optKeys_dictInsert (k : Char) (v : List Char) :
    ∀ m : List (Char × List Char), k ∈ optKeys (dictInsert k v m) := by
  intro m
  induction m with
  | nil => simp [dictInsert, optKeys]
  | cons p rest ih =>
    obtain ⟨k', v'⟩ := p
    by_cases h : k' = k
    · simp [dictInsert, optKeys, h]
    · simp only [dictInsert, if_neg h, optKeys, List.map_cons, List.mem_cons]
      right
      simpa [optKeys] using ih

theorem listMax?_optKeys_dictInsert (k : Char) (v : List Char)
    (m : List (Char × List Char)) (hub : ∀ x ∈ optKeys m, x ≤ k) :
    listMax? (optKeys (dictInsert k v m)) = some k := by
  refine listMax?_eq_some_of _ k (self_mem_optKeys_dictInsert k v m) ?_
  intro y hy
  rcases mem_optKeys_dictInsert k v m y hy with h | h
  · exact le_of_eq h
  · exact hub y h

theorem matchedLetters_cons_some (line : List Char) (rest : List (List Char))
    (p : Char × List Char) (h : matchAnswerLine line = some p) :
    matchedLetters (line :: rest) = p.1 :: matchedLetters rest := by
  simp [matchedLetters, h]

theorem matchedLetters_cons_none (line : List Char) (rest : List (List Char))
    (h : matchAnswerLine line = none) :
    matchedLetters (line :: rest) = matchedLetters rest := by
  simp [matchedLetters, h]

theorem foldBlock_eq : ∀ (lines : List (List Char)) (b : Bool)
    (qs : List (List Char)) (om : List (Char × List Char)),
    List.Pairwise (· ≤ ·) (matchedLetters lines) →
    (∀ k ∈ optKeys om, ∀ c ∈ matchedLetters lines, k ≤ c) →
    lines.foldl blockStep ⟨b, qs, om⟩ =
      toAcc (lines.foldl blockStepSpec ⟨b, qs, om, listMax? (optKeys om)⟩) := by
  intro lines
  induction lines with
  | nil =>
    intro b qs om _ _
    rfl
  | cons line rest ih =>
    intro b qs om hp hub
    simp only [List.foldl_cons]
    cases hm : matchAnswerLine line with
    | some p =>
      obtain ⟨lt, txt⟩ := p
      rw [matchedLetters_cons_some line rest (lt, txt) hm] at hp hub
      rw [List.pairwise_cons] at hp
      obtain ⟨h1, h2⟩ := hp
      have hstep : blockStep ⟨b, qs, om⟩ line =
          ⟨true, qs, dictInsert lt (strip txt) om⟩ := by
        simp [blockStep, hm]
      have hstepS : blockStepSpec ⟨b, qs, om, listMax? (optKeys om)⟩ line =
          ⟨true, qs, dictInsert lt (strip txt) om, some lt⟩ := by
        simp [blockStepSpec, hm]
      rw [hstep, hstepS]
      have hl : some lt = listMax? (optKeys (dictInsert lt (strip txt) om)) := by
        rw [listMax?_optKeys_dictInsert]
        intro x hx
        exact hub x hx lt (List.mem_cons_self _ _)
      rw [hl]
      apply ih true qs (dictInsert lt (strip txt) om) h2
      intro k hk c hc
      rcases mem_optKeys_dictInsert _ _ _ _ hk with h | h
      · subst h
        exact h1 c hc
      · exact hub k h c (List.mem_cons_of_mem _ hc)
    | none =>
      rw [matchedLetters_cons_none line rest hm] at hp hub
      cases b with
      | false =>
        have hstep : blockStep ⟨false, qs, om⟩ line = ⟨false, qs ++ [line], om⟩ := by
          simp [blockStep, hm]
        have hstepS : blockStepSpec ⟨false, qs, om, listMax? (optKeys om)⟩ line =
            ⟨false, qs ++ [line], om, listMax? (optKeys om)⟩ := by
          simp [blockStepSpec, hm]
        rw [hstep, hstepS]
        exact ih false (qs ++ [line]) om hp hub
      | true =>
        cases hmax : listMax? (optKeys om) with
        | none =>
          have hstep : blockStep ⟨true, qs, om⟩ line = ⟨true, qs, om⟩ := by
            simp [blockStep, hm, hmax]
          have hstepS : blockStepSpec ⟨true, qs, om, none⟩ line =
              ⟨true, qs, om, none⟩ := by
            simp [blockStepSpec, hm]
          rw [hstep, hstepS, ← hmax]
          exact ih true qs om hp hub
        | some k =>
          have hstep : blockStep ⟨true, qs, om⟩ line =
              ⟨true, qs, dictAppend k (' ' :: strip line) om⟩ := by
            simp [blockStep, hm, hmax]
          have hstepS : blockStepSpec ⟨true, qs, om, some k⟩ line =
              ⟨true, qs, dictAppend k (' ' :: strip line) om, some k⟩ := by
            simp [blockStepSpec, hm]
          rw [hstep, hstepS]
          have hk : some k = listMax? (optKeys (dictAppend k (' ' :: strip line) om)) := by
            rw [optKeys_dictAppend, hmax]
          rw [hk]
          apply ih true qs _ hp
          intro k' hk' c hc
          rw [optKeys_dictAppend] at hk'
          exact hub k' hk' c hc

/-- Claim C1, counterexample: in a block whose option lines appear out of
alphabetical order, a continuation line is appended to the alphabetically
greatest letter recorded so far, not to the most recently seen letter as
the claim states: with b) before a), the continuation extends option b in
the source while the claim-described behaviour would extend option a. -/
theorem claim1_counterexample :
    parseBlock ("What is X?\nb) x\na) y\nz z".toList) ≠
      parseBlockSpec ("What is X?\nb) x\na) y\nz z".toList) ∧
    (parseBlock ("What is X?\nb) x\na) y\nz z".toList)).options =
      [['y'], "x z z".toList, [], []] ∧
    (parseBlockSpec ("What is X?\nb) x\na) y\nz z".toList)).options =
      ["y z z".toList, ['x'], [], []] := by
  refine ⟨by decide, by decide, by decide⟩

/-- Claim C1 (amended): in answers mode a non-matching line is appended,
space-joined, to the text of the alphabetically greatest option letter seen
so far (sorted keys, last element); whenever the option letters of a block
appear in non-decreasing alphabetical order — the usual document layout —
this letter is the most recently seen one, so the source parse coincides
with the spec-described parse that tracks the most recently seen letter. -/
theorem claim1_continuation_letter (block : List Char)
    (h : List.Pairwise (· ≤ ·) (matchedLetters (prepLines block))) :
    parseBlock block = parseBlockSpec block := by
  have heq : (prepLines block).foldl blockStep ⟨false, [], []⟩ =
      toAcc ((prepLines block).foldl blockStepSpec ⟨false, [], [], none⟩) := by
    have hmain := foldBlock_eq (prepLines block) false [] [] h (by simp [optKeys])
    simpa [optKeys, listMax?] using hmain
  simp only [parseBlock, parseBlockSpec, heq, toAcc]

/-- Witness for claim C1: the amended theorem applied to a concrete block
whose option letters appear in alphabetical order. -/
theorem claim1_continuation_letter_witness :
    List.Pairwise (fun x y => x ≤ y) (matchedLetters (prepLines
      ("What is X?\na) foo\nb) bar\nc) baz\nd) qux".toList))) ∧
    parseBlock ("What is X?\na) foo\nb) bar\nc) baz\nd) qux".toList) =
      parseBlockSpec ("What is X?\na) foo\nb) bar\nc) baz\nd) qux".toList) :=
  ⟨by decide, claim1_continuation_letter _ (by decide)⟩

end Istqb
